import Mathlib

set_option maxHeartbeats 1000000
set_option linter.unusedSectionVars false
set_option linter.unusedVariables false

/-!
Verification development for the SMQTK concurrent indexing core:

* `compute_many_descriptors` (src/python/smqtk/compute_functions.py, the batch
  orchestrator),
* `compute_hash_codes` (src/python/smqtk/compute_functions.py, the hash
  indexer),
* `IqrController.add_session` / `get_session` / `remove_session`
  (src/python/smqtk/iqr/iqr_controller.py, the session controller).

The Python code is embedded shallowly: items are an opaque type `I` with
decidable equality (Python object equality used for dict keys), the mapping
returned by `DescriptorGenerator.compute_descriptor_async` is an association
list queried by item, a raised `KeyError` is `Option.none`, and the
nondeterministic completion order produced by `parallel.parallel_map` with
`ordered=False` is an explicitly quantified permutation of the per-item
results.
-/

section ComputeMany

variable {I F V : Type} [DecidableEq I]

/-- Python dict lookup `m[e]` on the mapping returned by
`compute_descriptor_async`, modelled on an association list.  `none` models a
raised `KeyError`. -/
def dictLookup (m : List (I × V)) (e : I) : Option V :=
  (m.find? (fun p => decide (p.1 = e))).map Prod.snd

/-- The yield loop of `compute_many_descriptors`:
`for e in dfe_deque: yield e._filepath, m[e]`.  A missing key aborts the
generator with a `KeyError` (`none`). -/
def yieldBatch (filepath : I → F) (m : List (I × V)) : List I → Option (List (F × V))
  | [] => some []
  | e :: rest =>
    match dictLookup m e with
    | none => none
    | some v => (yieldBatch filepath m rest).map (fun out => (filepath e, v) :: out)

/-- The batched branch of `compute_many_descriptors` (`if batch_size:`).  The
second list argument is the state of `dfe_deque`: each pulled element is
appended, and when the deque reaches `batch_size` the generator is invoked on
it, the results are yielded in deque order, and the deque is cleared.  A final
non-empty remainder is submitted as one last batch.  The result carries the
yielded `(filepath, vector)` pairs together with the trace of batches on which
`compute_descriptor_async` was invoked. -/
def computeManyBatched (filepath : I → F) (gen : List I → List (I × V)) (b : Nat) :
    List I → List I → Option (List (F × V) × List (List I))
  | [], buf =>
    if buf.length = 0 then some ([], [])
    else
      match yieldBatch filepath (gen buf) buf with
      | none => none
      | some out => some (out, [buf])
  | x :: rest, buf =>
    if (buf ++ [x]).length = b then
      match yieldBatch filepath (gen (buf ++ [x])) (buf ++ [x]) with
      | none => none
      | some out =>
        match computeManyBatched filepath gen b rest [] with
        | none => none
        | some pr => some (out ++ pr.1, (buf ++ [x]) :: pr.2)
    else
      computeManyBatched filepath gen b rest (buf ++ [x])

/-- The unbatched branch of `compute_many_descriptors` (`batch_size` unset or
falsy): the whole input is submitted as a single asynchronous call, then every
captured element is yielded in input order. -/
def computeManyUnbatched (filepath : I → F) (gen : List I → List (I × V))
    (input : List I) : Option (List (F × V) × List (List I)) :=
  match yieldBatch filepath (gen input) input with
  | none => none
  | some out => some (out, [input])

/-- `compute_many_descriptors` from `smqtk/compute_functions.py`.  `filepath`
is the projection `e._filepath`, `gen` is
`descr_generator.compute_descriptor_async` (with `descr_factory`, `overwrite`,
`procs` and `kwds` absorbed), `batch_size = none` or `some 0` is the falsy
`if batch_size:` branch.  The insertion into `descr_index` is an external side
effect with no bearing on the yielded sequence and is not recorded. -/
def compute_many_descriptors (filepath : I → F) (gen : List I → List (I × V))
    (batch_size : Option Nat) (input : List I) :
    Option (List (F × V) × List (List I)) :=
  match batch_size with
  | some b =>
    if b = 0 then computeManyUnbatched filepath gen input
    else computeManyBatched filepath gen b input []
  | none => computeManyUnbatched filepath gen input

/-- Consecutive chunks of size `b` (the final chunk holding the non-empty
remainder), written with an explicit fuel argument so that it computes by
`rfl`. -/
def chunkFuel (b : Nat) : Nat → List I → List (List I)
  | _, [] => []
  | 0, xs => [xs]
  | fuel + 1, x :: xs => (x :: xs.take (b - 1)) :: chunkFuel b fuel (xs.drop (b - 1))

/-- Consecutive chunks of size `b` of a list; the final chunk is the non-empty
remainder when `b` does not divide the length. -/
def chunkList (b : Nat) (xs : List I) : List (List I) :=
  chunkFuel b xs.length xs

theorem chunkFuel_nil (b fuel : Nat) : chunkFuel b fuel ([] : List I) = [] := by
  cases fuel <;> rfl

theorem chunkFuel_congr (b : Nat) :
    ∀ (fuel₁ fuel₂ : Nat) (xs : List I), xs.length ≤ fuel₁ → xs.length ≤ fuel₂ →
      chunkFuel b fuel₁ xs = chunkFuel b fuel₂ xs := by
  intro fuel₁
  induction fuel₁ with
  | zero =>
    intro fuel₂ xs h₁ _
    have hxs : xs = [] := List.eq_nil_of_length_eq_zero (Nat.le_zero.mp h₁)
    subst hxs
    rw [chunkFuel_nil, chunkFuel_nil]
  | succ n ih =>
    intro fuel₂ xs h₁ h₂
    cases xs with
    | nil => rw [chunkFuel_nil, chunkFuel_nil]
    | cons x t =>
      cases fuel₂ with
      | zero => exact absurd h₂ (by simp)
      | succ m =>
        have h₁' : (t.drop (b - 1)).length ≤ n := by
          rw [List.length_drop]
          simp only [List.length_cons] at h₁
          omega
        have h₂' : (t.drop (b - 1)).length ≤ m := by
          rw [List.length_drop]
          simp only [List.length_cons] at h₂
          omega
        simp only [chunkFuel]
        rw [ih m (t.drop (b - 1)) h₁' h₂']

theorem chunkList_nil (b : Nat) : chunkList b ([] : List I) = [] := rfl

theorem chunkList_cons (b : Nat) (hb : 0 < b) (x : I) (t : List I) :
    chunkList b (x :: t) = ((x :: t).take b) :: chunkList b ((x :: t).drop b) := by
  obtain ⟨bb, rfl⟩ : ∃ bb, b = bb + 1 := ⟨b - 1, by omega⟩
  show chunkFuel (bb + 1) (t.length + 1) (x :: t) = _
  simp only [chunkFuel, Nat.add_sub_cancel, List.take_succ_cons, List.drop_succ_cons]
  rw [chunkList, chunkFuel_congr (bb + 1) t.length (t.drop bb).length (t.drop bb)
    (by rw [List.length_drop]; omega) le_rfl]

theorem chunkList_of_length_le (b : Nat) (hb : 0 < b) (xs : List I) (h0 : xs ≠ [])
    (hle : xs.length ≤ b) : chunkList b xs = [xs] := by
  cases xs with
  | nil => exact absurd rfl h0
  | cons x t =>
    rw [chunkList_cons b hb, List.take_of_length_le hle, List.drop_eq_nil_of_le hle,
      chunkList_nil]

theorem chunkList_append (b : Nat) (hb : 0 < b) (buf rest : List I)
    (hlen : buf.length = b) : chunkList b (buf ++ rest) = buf :: chunkList b rest := by
  cases buf with
  | nil => rw [List.length_nil] at hlen; omega
  | cons y ys =>
    have hc : (y :: ys) ++ rest = y :: (ys ++ rest) := rfl
    rw [hc, chunkList_cons b hb, ← hc, ← hlen, List.take_left, List.drop_left]

theorem yieldBatch_of_fn (filepath : I → F) (f : I → V) (m : List (I × V))
    (L : List I) (h : ∀ e ∈ L, dictLookup m e = some (f e)) :
    yieldBatch filepath m L = some (L.map (fun e => (filepath e, f e))) := by
  induction L with
  | nil => rfl
  | cons e rest ih =>
    have he := h e (List.mem_cons_self e rest)
    have hr := ih (fun x hx => h x (List.mem_cons_of_mem e hx))
    simp only [yieldBatch, he, hr, List.map_cons, Option.map_some']

theorem yieldBatch_isSome (filepath : I → F) (m : List (I × V)) (L : List I)
    (h : ∀ e ∈ L, (dictLookup m e).isSome) :
    ∃ out, yieldBatch filepath m L = some out ∧ out.map Prod.fst = L.map filepath := by
  induction L with
  | nil => exact ⟨[], rfl, rfl⟩
  | cons e rest ih =>
    obtain ⟨v, hv⟩ := Option.isSome_iff_exists.mp (h e (List.mem_cons_self e rest))
    obtain ⟨out, hout, hfst⟩ := ih (fun x hx => h x (List.mem_cons_of_mem e hx))
    refine ⟨(filepath e, v) :: out, ?_, ?_⟩
    · simp only [yieldBatch, hv, hout, Option.map_some']
    · simp only [List.map_cons, hfst]

/-- Core invariant of the batched loop of `compute_many_descriptors`: assuming
the generator's mapping resolves every requested element `e` to `f e`, the
loop started with buffer contents `buf` (strictly below the batch size) yields
exactly one `(filepath, vector)` pair per element of `buf ++ input` in that
order, and invokes the generator exactly on the consecutive size-`b` chunks of
`buf ++ input` (final non-empty remainder included). -/
theorem computeManyBatched_spec (filepath : I → F) (gen : List I → List (I × V))
    (f : I → V) (b : Nat)
    (hgen : ∀ L e, e ∈ L → dictLookup (gen L) e = some (f e)) :
    ∀ (input buf : List I), buf.length < b →
      computeManyBatched filepath gen b input buf =
        some ((buf ++ input).map (fun e => (filepath e, f e)),
          chunkList b (buf ++ input)) := by
  intro input
  induction input with
  | nil =>
    intro buf hbuf
    by_cases h0 : buf.length = 0
    · have hnil : buf = [] := List.eq_nil_of_length_eq_zero h0
      subst hnil
      simp [computeManyBatched, chunkList_nil]
    · have hb : 0 < b := Nat.lt_of_le_of_lt (Nat.zero_le _) hbuf
      have hne : buf ≠ [] := fun hh => h0 (by rw [hh]; rfl)
      have hyield := yieldBatch_of_fn filepath f (gen buf) buf
        (fun e he => hgen buf e he)
      simp only [computeManyBatched, if_neg h0, hyield, List.append_nil]
      rw [chunkList_of_length_le b hb buf hne (Nat.le_of_lt hbuf)]
  | cons x rest ih =>
    intro buf hbuf
    by_cases hfull : (buf ++ [x]).length = b
    · have hb : 0 < b := by
        rw [← hfull, List.length_append]
        simp
      have hyield := yieldBatch_of_fn filepath f (gen (buf ++ [x])) (buf ++ [x])
        (fun e he => hgen (buf ++ [x]) e he)
      have hrec := ih [] hb
      simp only [computeManyBatched, if_pos hfull, hyield, hrec, List.nil_append]
      rw [List.append_cons buf x rest, List.map_append,
        chunkList_append b hb (buf ++ [x]) rest hfull]
      simp [List.map_append]
    · have hlt : (buf ++ [x]).length < b := by
        rw [List.length_append] at hfull ⊢
        simp only [List.length_singleton] at hfull ⊢
        omega
      have hrec := ih (buf ++ [x]) hlt
      simp only [computeManyBatched, if_neg hfull, hrec]
      rw [List.append_cons buf x rest]

/-- Variant of the loop invariant assuming only that the generator's mapping
contains an entry for every requested element: the yielded identifiers are the
buffered-then-remaining elements' filepaths in order. -/
theorem computeManyBatched_fst (filepath : I → F) (gen : List I → List (I × V))
    (b : Nat) (hgen : ∀ (L : List I) (e : I), e ∈ L → (dictLookup (gen L) e).isSome) :
    ∀ (input buf : List I), ∃ pr,
      computeManyBatched filepath gen b input buf = some pr ∧
        pr.1.map Prod.fst = (buf ++ input).map filepath := by
  intro input
  induction input with
  | nil =>
    intro buf
    by_cases h0 : buf.length = 0
    · have hnil : buf = [] := List.eq_nil_of_length_eq_zero h0
      subst hnil
      exact ⟨([], []), by simp [computeManyBatched], by simp⟩
    · obtain ⟨out, hout, hfst⟩ := yieldBatch_isSome filepath (gen buf) buf
        (fun e he => hgen buf e he)
      refine ⟨(out, [buf]), ?_, ?_⟩
      · simp only [computeManyBatched, if_neg h0, hout]
      · simpa using hfst
  | cons x rest ih =>
    intro buf
    by_cases hfull : (buf ++ [x]).length = b
    · obtain ⟨out, hout, hfst⟩ := yieldBatch_isSome filepath (gen (buf ++ [x]))
        (buf ++ [x]) (fun e he => hgen (buf ++ [x]) e he)
      obtain ⟨pr, hpr, hprfst⟩ := ih []
      refine ⟨(out ++ pr.1, (buf ++ [x]) :: pr.2), ?_, ?_⟩
      · simp only [computeManyBatched, if_pos hfull, hout, hpr]
      · rw [List.map_append, hfst, List.append_cons buf x rest, List.map_append]
        simp only [List.nil_append] at hprfst
        rw [hprfst]
        simp [List.map_append]
    · obtain ⟨pr, hpr, hprfst⟩ := ih (buf ++ [x])
      refine ⟨pr, ?_, ?_⟩
      · simp only [computeManyBatched, if_neg hfull, hpr]
      · rw [hprfst, List.append_cons buf x rest]

/-- Claim C1: for every finite input sequence and every batch-size
configuration (including unset and falsy zero), the identifiers yielded by
`compute_many_descriptors`, in emission order, are exactly the input items'
filepaths in input order, for an arbitrary generator mapping (any entry order,
any values) that contains an entry for each requested item. -/
theorem compute_many_descriptors_order_preserving (filepath : I → F)
    (gen : List I → List (I × V)) (batch_size : Option Nat) (input : List I)
    (hgen : ∀ (L : List I) (e : I), e ∈ L → (dictLookup (gen L) e).isSome) :
    ∃ out trace,
      compute_many_descriptors filepath gen batch_size input = some (out, trace) ∧
        out.map Prod.fst = input.map filepath := by
  have hun : ∃ out trace,
      computeManyUnbatched filepath gen input = some (out, trace) ∧
        out.map Prod.fst = input.map filepath := by
    obtain ⟨out, hout, hfst⟩ := yieldBatch_isSome filepath (gen input) input
      (fun e he => hgen input e he)
    exact ⟨out, [input], by simp only [computeManyUnbatched, hout], hfst⟩
  cases batch_size with
  | none => simpa only [compute_many_descriptors] using hun
  | some b =>
    by_cases hb : b = 0
    · subst hb
      simpa only [compute_many_descriptors, if_pos rfl] using hun
    · obtain ⟨pr, hpr, hfst⟩ := computeManyBatched_fst filepath gen b hgen input []
      refine ⟨pr.1, pr.2, ?_, by simpa using hfst⟩
      simp only [compute_many_descriptors, if_neg hb, hpr]

/-- Claim C2: `compute_many_descriptors` yields exactly one pair per input
item, no duplicates and no omissions, each pair's vector being the one the
generator's mapping associates to that item by identity lookup (so
content-identical, i.e. equal, items deduplicated to one mapping entry each
still yield their own pair), and an empty input yields nothing. -/
theorem compute_many_descriptors_complete (filepath : I → F)
    (gen : List I → List (I × V)) (f : I → V) (batch_size : Option Nat)
    (input : List I)
    (hgen : ∀ (L : List I) (e : I), e ∈ L → dictLookup (gen L) e = some (f e)) :
    ∃ trace,
      compute_many_descriptors filepath gen batch_size input =
        some (input.map (fun e => (filepath e, f e)), trace) := by
  have hun : ∃ trace,
      computeManyUnbatched filepath gen input =
        some (input.map (fun e => (filepath e, f e)), trace) := by
    have hy := yieldBatch_of_fn filepath f (gen input) input
      (fun e he => hgen input e he)
    exact ⟨[input], by simp only [computeManyUnbatched, hy]⟩
  cases batch_size with
  | none => simpa only [compute_many_descriptors] using hun
  | some b =>
    by_cases hb : b = 0
    · subst hb
      simpa only [compute_many_descriptors, if_pos rfl] using hun
    · have hpos : 0 < b := Nat.pos_of_ne_zero hb
      have hspec := computeManyBatched_spec filepath gen f b hgen input []
        (by simpa using hpos)
      refine ⟨chunkList b input, ?_⟩
      simp only [compute_many_descriptors, if_neg hb, hspec, List.nil_append]

/-- Claim C3: with a positive `batch_size`, the generator is invoked exactly
on the consecutive `batch_size`-element groups of the input, plus one final
call on the non-empty remainder; the recorded batch trace is precisely
`chunkList batch_size input`. -/
theorem compute_many_descriptors_batch_calls (filepath : I → F)
    (gen : List I → List (I × V)) (f : I → V) (b : Nat) (hb : 0 < b)
    (input : List I)
    (hgen : ∀ (L : List I) (e : I), e ∈ L → dictLookup (gen L) e = some (f e)) :
    compute_many_descriptors filepath gen (some b) input =
      some (input.map (fun e => (filepath e, f e)), chunkList b input) := by
  have hspec := computeManyBatched_spec filepath gen f b hgen input []
    (by simpa using hb)
  simp only [compute_many_descriptors, if_neg (Nat.pos_iff_ne_zero.mp hb), hspec,
    List.nil_append]

end ComputeMany

section ComputeManyWitness

/-- Concrete generator used by the witnesses: every item `e` maps to the
vector `e + 100`, and the mapping's entries are deliberately listed in
reversed input order to exercise order independence. -/
def genW (L : List Nat) : List (Nat × Nat) :=
  (L.map (fun e => (e, e + 100))).reverse

theorem dictLookup_consistent {I V : Type} [DecidableEq I] (f : I → V)
    (m : List (I × V)) (hm : ∀ p ∈ m, p.2 = f p.1) (e : I)
    (he : ∃ p ∈ m, p.1 = e) : dictLookup m e = some (f e) := by
  induction m with
  | nil =>
    obtain ⟨p, hp, _⟩ := he
    cases hp
  | cons a m ih =>
    by_cases hae : a.1 = e
    · rw [dictLookup, List.find?_cons_of_pos _ (by simpa using hae)]
      have := hm a (List.mem_cons_self a m)
      simp only [Option.map_some']
      rw [this, hae]
    · rw [dictLookup, List.find?_cons_of_neg _ (by simpa using hae)]
      refine ih (fun p hp => hm p (List.mem_cons_of_mem a hp)) ?_
      obtain ⟨p, hp, hpe⟩ := he
      rcases List.mem_cons.mp hp with h | h
      · exact absurd (h ▸ hpe) hae
      · exact ⟨p, h, hpe⟩

theorem genW_covers : ∀ (L : List Nat) (e : Nat), e ∈ L →
    dictLookup (genW L) e = some (e + 100) := by
  intro L e he
  refine dictLookup_consistent (fun x => x + 100) (genW L) ?_ e ?_
  · intro p hp
    simp only [genW, List.mem_reverse, List.mem_map] at hp
    obtain ⟨x, _, rfl⟩ := hp
    rfl
  · refine ⟨(e, e + 100), ?_, rfl⟩
    simp only [genW, List.mem_reverse, List.mem_map]
    exact ⟨e, he, rfl⟩

theorem genW_covers_isSome : ∀ (L : List Nat) (e : Nat), e ∈ L →
    (dictLookup (genW L) e).isSome := by
  intro L e he
  rw [genW_covers L e he]
  rfl

/-- Witness for claim C1 at batch size 2 on five items, with the generator's
mapping entries in reversed order. -/
theorem compute_many_descriptors_order_preserving_witness :
    (∀ (L : List Nat) (e : Nat), e ∈ L → (dictLookup (genW L) e).isSome) ∧
    (∃ out trace,
      compute_many_descriptors (fun e => e) genW (some 2) [0, 1, 2, 3, 4] =
        some (out, trace) ∧
        out.map Prod.fst = [0, 1, 2, 3, 4].map (fun e => e)) :=
  ⟨genW_covers_isSome,
    compute_many_descriptors_order_preserving (fun e => e) genW (some 2)
      [0, 1, 2, 3, 4] genW_covers_isSome⟩

/-- Witness for claim C2 on an unbatched run whose input holds a duplicated
(content-identical) item. -/
theorem compute_many_descriptors_complete_witness :
    (∀ (L : List Nat) (e : Nat), e ∈ L → dictLookup (genW L) e = some (e + 100)) ∧
    (∃ trace,
      compute_many_descriptors (fun e => e) genW none [3, 3, 7] =
        some ([3, 3, 7].map (fun e => (e, e + 100)), trace)) :=
  ⟨genW_covers,
    compute_many_descriptors_complete (fun e => e) genW (fun e => e + 100) none
      [3, 3, 7] genW_covers⟩

/-- Witness for claim C3: five items at batch size 2 produce generator calls
on batches of sizes 2, 2 and 1, in that order. -/
theorem compute_many_descriptors_batch_calls_witness :
    ((0 < 2) ∧
      ∀ (L : List Nat) (e : Nat), e ∈ L → dictLookup (genW L) e = some (e + 100)) ∧
    compute_many_descriptors (fun e => e) genW (some 2) [0, 1, 2, 3, 4] =
      some ([0, 1, 2, 3, 4].map (fun e => (e, e + 100)),
        chunkList 2 [0, 1, 2, 3, 4]) ∧
    chunkList 2 [0, 1, 2, 3, 4] = [[0, 1], [2, 3], [4]] :=
  ⟨⟨by decide, genW_covers⟩,
    compute_many_descriptors_batch_calls (fun e => e) genW (fun e => e + 100) 2
      (by decide) [0, 1, 2, 3, 4] genW_covers,
    rfl⟩

end ComputeManyWitness

section HashCodes

variable {U : Type} [DecidableEq U]

/-- The inverted index built by `compute_hash_codes`: a Python dict from the
integer hash code to the set of UUIDs sharing it, modelled as a partial map.
`none` means the key is absent. -/
abbrev InvIdx (U : Type) := Nat → Option (Finset U)

/-- The fresh mapping created by `compute_hash_codes` when `hash2uuids` is not
provided (`hash2uuids = {}`). -/
def emptyIdx : InvIdx U := fun _ => none

/-- The inner `get_hash` closure of `compute_hash_codes`: the pair of the UUID
and the integer hash code computed from its vector.  `hashOf` is the
composition `bit_utils.bit_vector_to_int_large ∘ functor.get_hash ∘ vector ∘
index.get_descriptor`, which is deterministic per UUID. -/
def get_hash (hashOf : U → Nat) (u : U) : U × Nat := (u, hashOf u)

/-- One iteration of the accumulation loop of `compute_hash_codes`:
`if hash_int not in hash2uuids: hash2uuids[hash_int] = set()` followed by
`hash2uuids[hash_int].add(uuid)`. -/
def insertHashCode (m : InvIdx U) (h : Nat) (u : U) : InvIdx U :=
  fun k => if k = h then some (insert u ((m h).getD ∅)) else m k

/-- The accumulation loop of `compute_hash_codes`, consuming the completed
`(uuid, hash_int)` results in the (arbitrary) order `parallel_map` with
`ordered=False` delivers them. -/
def accumulateHashes (m : InvIdx U) (results : List (U × Nat)) : InvIdx U :=
  results.foldl (fun acc p => insertHashCode acc p.2 p.1) m

/-- `compute_hash_codes` from `smqtk/compute_functions.py`.  `results` is the
completion-ordered list of `(uuid, hash_int)` pairs delivered by
`parallel.parallel_map(get_hash, uuids, ordered=False, use_multiprocessing=use_mp)`;
theorems relate it to the submitted `uuids` by permutation.  `report_interval`
and `use_mp` only steer progress logging and worker-pool selection in the
source and do not touch the returned mapping. -/
def compute_hash_codes (hash2uuids : Option (InvIdx U)) (report_interval : ℚ)
    (use_mp : Bool) (results : List (U × Nat)) : InvIdx U :=
  accumulateHashes (hash2uuids.getD emptyIdx) results

/-- The set of UUIDs among `results` whose hash code is `h`. -/
def bucket (results : List (U × Nat)) (h : Nat) : Finset U :=
  ((results.filter (fun p => p.2 == h)).map Prod.fst).toFinset

theorem bucket_eq_empty_of_not_any {results : List (U × Nat)} {h : Nat}
    (hany : results.any (fun p => p.2 == h) = false) : bucket results h = ∅ := by
  have : results.filter (fun p => p.2 == h) = [] := by
    rw [List.filter_eq_nil_iff]
    intro p hp
    have := List.any_eq_false.mp hany p hp
    simpa using this
  rw [bucket, this]
  rfl

theorem mem_bucket {results : List (U × Nat)} {h : Nat} {u : U} :
    u ∈ bucket results h ↔ (u, h) ∈ results := by
  rw [bucket, List.mem_toFinset, List.mem_map]
  constructor
  · rintro ⟨p, hp, rfl⟩
    obtain ⟨hmem, hh⟩ := List.mem_filter.mp hp
    have : p.2 = h := by simpa using hh
    have hpe : p = (p.1, h) := by
      rw [← this]
    rw [← hpe]
    exact hmem
  · intro hmem
    exact ⟨(u, h), List.mem_filter.mpr ⟨hmem, by simp⟩, rfl⟩

/-- Characterization of one lookup in the accumulated mapping: a key touched
by some result holds its prior contents united with the bucket of the results,
and an untouched key is left exactly as it was. -/
theorem accumulateHashes_lookup (results : List (U × Nat)) (m : InvIdx U) (h : Nat) :
    accumulateHashes m results h =
      if results.any (fun p => p.2 == h) then
        some ((m h).getD ∅ ∪ bucket results h)
      else m h := by
  induction results generalizing m with
  | nil => simp [accumulateHashes]
  | cons p rs ih =>
    obtain ⟨u, hp⟩ := p
    have hstep : accumulateHashes m ((u, hp) :: rs) =
        accumulateHashes (insertHashCode m hp u) rs := rfl
    rw [hstep, ih]
    by_cases hph : hp = h
    · subst hph
      have hkey : insertHashCode m hp u hp = some (insert u ((m hp).getD ∅)) := by
        rw [insertHashCode, if_pos rfl]
      have hbucket : bucket ((u, hp) :: rs) hp = insert u (bucket rs hp) := by
        rw [bucket, List.filter_cons_of_pos (by simp), List.map_cons, List.toFinset_cons]
        rfl
      have hany : ((u, hp) :: rs).any (fun p => p.2 == hp) = true := by simp
      rw [hany, if_pos rfl, hbucket]
      by_cases hrs : rs.any (fun p => p.2 == hp)
      · rw [if_pos hrs, hkey]
        rw [Option.getD_some, Finset.insert_union, Finset.union_insert]
      · rw [if_neg hrs, hkey, bucket_eq_empty_of_not_any (Bool.eq_false_iff.mpr hrs),
          Finset.union_insert, Finset.union_empty]
    · have hkey : insertHashCode m hp u h = m h := by
        rw [insertHashCode, if_neg (fun hh => hph hh.symm)]
      have hbucket : bucket ((u, hp) :: rs) h = bucket rs h := by
        rw [bucket, List.filter_cons_of_neg (by simpa using hph), bucket]
      have hany : ((u, hp) :: rs).any (fun p => p.2 == h) =
          rs.any (fun p => p.2 == h) := by
        simp [hph]
      rw [hany, hbucket, hkey]

theorem any_perm {α : Type} (p : α → Bool) {l₁ l₂ : List α} (hperm : l₁.Perm l₂) :
    l₁.any p = l₂.any p := by
  rw [Bool.eq_iff_iff, List.any_eq_true, List.any_eq_true]
  constructor
  · rintro ⟨x, hx, hp⟩
    exact ⟨x, hperm.mem_iff.mp hx, hp⟩
  · rintro ⟨x, hx, hp⟩
    exact ⟨x, hperm.mem_iff.mpr hx, hp⟩

theorem bucket_perm {rs₁ rs₂ : List (U × Nat)} (hperm : rs₁.Perm rs₂) (h : Nat) :
    bucket rs₁ h = bucket rs₂ h :=
  List.toFinset_eq_of_perm _ _ (((hperm.filter _)).map _)

theorem compute_hash_codes_none_lookup (ri : ℚ) (mp : Bool)
    (results : List (U × Nat)) (h : Nat) :
    compute_hash_codes none ri mp results h =
      if results.any (fun p => p.2 == h) then some (bucket results h) else none := by
  rw [compute_hash_codes, Option.getD_none, accumulateHashes_lookup]
  rw [show emptyIdx h = (none : Option (Finset U)) from rfl]
  rw [Option.getD_none, Finset.empty_union]

/-- Claim C4: after a run of `compute_hash_codes` started on a fresh mapping,
every processed UUID `u` is a member of the set stored under the hash code
computed from its vector, `u` belongs to no set stored under any other key,
and a key is present in the mapping exactly when some processed UUID hashed to
it (the set having been created at the first completed result carrying that
code). -/
theorem compute_hash_codes_membership (hashOf : U → Nat) (uuids : List U)
    (ri : ℚ) (mp : Bool) (results : List (U × Nat))
    (hres : results.Perm (uuids.map (get_hash hashOf))) :
    (∀ u ∈ uuids,
      (∃ s, compute_hash_codes none ri mp results (hashOf u) = some s ∧ u ∈ s) ∧
      ∀ h s, compute_hash_codes none ri mp results h = some s → u ∈ s →
        h = hashOf u) ∧
    ∀ h, (compute_hash_codes none ri mp results h).isSome ↔
      h ∈ uuids.map hashOf := by
  constructor
  · intro u hu
    constructor
    · have hmem : (u, hashOf u) ∈ results := by
        rw [hres.mem_iff, List.mem_map]
        exact ⟨u, hu, rfl⟩
      have hany : results.any (fun p => p.2 == hashOf u) = true := by
        rw [List.any_eq_true]
        exact ⟨(u, hashOf u), hmem, by simp⟩
      refine ⟨bucket results (hashOf u), ?_, mem_bucket.mpr hmem⟩
      rw [compute_hash_codes_none_lookup, if_pos hany]
    · intro h s hsome hus
      rw [compute_hash_codes_none_lookup] at hsome
      by_cases hany : results.any (fun p => p.2 == h)
      · rw [if_pos hany] at hsome
        have hs : s = bucket results h := by
          injection hsome.symm
        subst hs
        have hmem : (u, h) ∈ results := mem_bucket.mp hus
        have : (u, h) ∈ uuids.map (get_hash hashOf) := hres.mem_iff.mp hmem
        rw [List.mem_map] at this
        obtain ⟨u', _, heq⟩ := this
        rw [get_hash, Prod.mk.injEq] at heq
        rw [← heq.2, heq.1]
      · rw [if_neg hany] at hsome
        cases hsome
  · intro h
    rw [compute_hash_codes_none_lookup,
      any_perm (fun p => p.2 == h) hres]
    by_cases hany : (uuids.map (get_hash hashOf)).any (fun p => p.2 == h)
    · rw [if_pos hany]
      simp only [Option.isSome_some, true_iff]
      rw [List.any_eq_true] at hany
      obtain ⟨p, hp, hph⟩ := hany
      rw [List.mem_map] at hp
      obtain ⟨u', hu', rfl⟩ := hp
      rw [List.mem_map]
      exact ⟨u', hu', by simpa using hph⟩
    · rw [if_neg hany]
      simp only [Option.isSome_none, Bool.false_eq_true, false_iff]
      intro hcon
      apply hany
      rw [List.mem_map] at hcon
      obtain ⟨u', hu', rfl⟩ := hcon
      rw [List.any_eq_true]
      exact ⟨(u', hashOf u'), List.mem_map.mpr ⟨u', hu', rfl⟩, by simp [get_hash]⟩

/-- Claim C5: the mapping returned by `compute_hash_codes` depends only on the
multiset of completed `(uuid, hash)` results, not on their completion order,
and not on `use_mp` or the reporting cadence (which only choose the worker
pool and the logging behaviour). -/
theorem compute_hash_codes_order_independent (hash2uuids : Option (InvIdx U))
    (ri₁ ri₂ : ℚ) (mp₁ mp₂ : Bool) (rs₁ rs₂ : List (U × Nat))
    (hperm : rs₁.Perm rs₂) :
    compute_hash_codes hash2uuids ri₁ mp₁ rs₁ =
      compute_hash_codes hash2uuids ri₂ mp₂ rs₂ := by
  funext h
  rw [compute_hash_codes, compute_hash_codes, accumulateHashes_lookup,
    accumulateHashes_lookup, any_perm (fun p => p.2 == h) hperm,
    bucket_perm hperm]

/-- Claim C6: a caller-supplied mapping is extended and returned — during the
run no key is removed, no UUID is removed from a pre-existing set, and the
mapping is never cleared; when no mapping is supplied, the run is the same as
one extending a fresh empty mapping. -/
theorem compute_hash_codes_extends (m₀ : InvIdx U) (ri : ℚ) (mp : Bool)
    (results : List (U × Nat)) :
    (∀ h s, m₀ h = some s →
      ∃ s', compute_hash_codes (some m₀) ri mp results h = some s' ∧ s ⊆ s') ∧
    (∀ h, compute_hash_codes (some m₀) ri mp results h = none → m₀ h = none) ∧
    compute_hash_codes none ri mp results =
      compute_hash_codes (some emptyIdx) ri mp results := by
  refine ⟨?_, ?_, rfl⟩
  · intro h s hs
    rw [compute_hash_codes, Option.getD_some, accumulateHashes_lookup]
    by_cases hany : results.any (fun p => p.2 == h)
    · rw [if_pos hany, hs, Option.getD_some]
      exact ⟨s ∪ bucket results h, rfl, Finset.subset_union_left⟩
    · rw [if_neg hany, hs]
      exact ⟨s, rfl, Finset.Subset.refl s⟩
  · intro h hnone
    rw [compute_hash_codes, Option.getD_some, accumulateHashes_lookup] at hnone
    by_cases hany : results.any (fun p => p.2 == h)
    · rw [if_pos hany] at hnone
      cases hnone
    · rw [if_neg hany] at hnone
      exact hnone

end HashCodes

section HashCodesWitness

/-- Witness for claim C4 on three UUIDs hashed modulo 2, with results
delivered in an order differing from submission order. -/
theorem compute_hash_codes_membership_witness :
    ([(3, 1), (1, 1), (2, 0)] : List (Nat × Nat)).Perm
        ([1, 2, 3].map (get_hash (fun u => u % 2))) ∧
    ((∀ u ∈ [1, 2, 3],
      (∃ s, compute_hash_codes none 1 false [(3, 1), (1, 1), (2, 0)] (u % 2) =
          some s ∧ u ∈ s) ∧
      ∀ h s, compute_hash_codes none 1 false [(3, 1), (1, 1), (2, 0)] h = some s →
        u ∈ s → h = u % 2) ∧
    ∀ h, (compute_hash_codes none 1 false [(3, 1), (1, 1), (2, 0)] h).isSome ↔
      h ∈ [1, 2, 3].map (fun u => u % 2)) :=
  ⟨by decide,
    compute_hash_codes_membership (fun u => u % 2) [1, 2, 3] 1 false
      [(3, 1), (1, 1), (2, 0)] (by decide)⟩

/-- Witness for claim C5 on two permuted result lists and opposite `use_mp`
settings. -/
theorem compute_hash_codes_order_independent_witness :
    ([(1, 5), (2, 5), (3, 9)] : List (Nat × Nat)).Perm [(3, 9), (2, 5), (1, 5)] ∧
    compute_hash_codes none 1 true [(1, 5), (2, 5), (3, 9)] =
      compute_hash_codes none 0 false [(3, 9), (2, 5), (1, 5)] :=
  ⟨by decide,
    compute_hash_codes_order_independent none 1 0 true false
      [(1, 5), (2, 5), (3, 9)] [(3, 9), (2, 5), (1, 5)] (by decide)⟩

/-- A small caller-supplied mapping used by the C6 witness: hash code 3 is
pre-bound to the UUID set containing 9. -/
def suppliedIdxW : InvIdx Nat := fun h => if h = 3 then some {9} else none

/-- Witness for claim C6 with a pre-existing key that also collides with a new
result. -/
theorem compute_hash_codes_extends_witness :
    (∀ h s, suppliedIdxW h = some s →
      ∃ s', compute_hash_codes (some suppliedIdxW) 1 false [(4, 3), (5, 0)] h =
          some s' ∧ s ⊆ s') ∧
    (∀ h, compute_hash_codes (some suppliedIdxW) 1 false [(4, 3), (5, 0)] h = none →
      suppliedIdxW h = none) ∧
    compute_hash_codes none 1 false [(4, 3), (5, 0)] =
      compute_hash_codes (some (emptyIdx (U := Nat))) 1 false [(4, 3), (5, 0)] :=
  compute_hash_codes_extends suppliedIdxW 1 false [(4, 3), (5, 0)]

end HashCodesWitness

section HashCodesReporting

/-- Whether periodic progress reporting is active in `compute_hash_codes`.
The source substitutes a no-op `def report_progress(*_): return` when
`log.getEffectiveLevel() > logging.DEBUG or report_interval <= 0`, so
reporting is active exactly when debug logging is enabled and the interval is
positive. -/
def reportingActive (debugEnabled : Bool) (report_interval : ℚ) : Bool :=
  debugEnabled && decide (0 < report_interval)

/-- Modelled from the spec: `bin_utils.report_progress` (in
`smqtk/utils/bin_utils.py`, which is not under src/) emits a progress
notification when the time elapsed since the previous report is at least the
supplied interval. -/
def report_progress_emits (elapsed interval : ℚ) : Bool :=
  decide (interval ≤ elapsed)

/-- Whether the final reporting call of `compute_hash_codes`
(`report_progress(log.debug, report_state, 0.0)`, issued after the loop with
interval `0.0`) emits a report: when reporting is active the modelled
`bin_utils.report_progress` is called with interval `0.0`, and when reporting
is inactive the substituted no-op runs instead and nothing is emitted.
`elapsed` is the (non-negative) time since the last periodic report. -/
def finalReportEmitted (debugEnabled : Bool) (report_interval elapsed : ℚ) : Bool :=
  if reportingActive debugEnabled report_interval then
    report_progress_emits elapsed 0
  else false

/-- Counterexample to claim C7 as stated: with debug logging disabled (and
likewise with a non-positive cadence) the final reporting call of
`compute_hash_codes` is the substituted no-op, so no final report is emitted,
contradicting the claimed unconditional final report. -/
theorem compute_hash_codes_final_report_counterexample :
    finalReportEmitted false 1 0 = false ∧ finalReportEmitted true (-1) 5 = false := by
  constructor <;> rfl

/-- Claim C7 as amended: the final reporting call of `compute_hash_codes`
emits a report exactly when reporting is active (debug logging enabled and a
positive cadence); the interval `0.0` passed at completion makes the emission
unconditional in that case, regardless of how little time elapsed since the
last periodic report. -/
theorem compute_hash_codes_final_report (debugEnabled : Bool)
    (report_interval elapsed : ℚ) (helapsed : 0 ≤ elapsed) :
    finalReportEmitted debugEnabled report_interval elapsed =
      reportingActive debugEnabled report_interval := by
  cases hra : reportingActive debugEnabled report_interval with
  | false => rw [finalReportEmitted, if_neg (by rw [hra]; exact Bool.false_ne_true)]
  | true =>
    rw [finalReportEmitted, if_pos (by rw [hra]), report_progress_emits,
      decide_eq_true helapsed]

/-- Witness for the amended claim C7: with debug logging enabled, cadence 1
and zero elapsed time, the final report is emitted. -/
theorem compute_hash_codes_final_report_witness :
    (0 : ℚ) ≤ 0 ∧ finalReportEmitted true 1 0 = reportingActive true 1 :=
  ⟨le_refl 0, compute_hash_codes_final_report true 1 0 (le_refl 0)⟩

end HashCodesReporting

section SessionController

/-- Failure modes of the `IqrController` operations.  In the source,
`duplicateSessionID` is the `RuntimeError` raised by `add_session`,
`sessionNotFound` is the `KeyError` raised by dict lookup in `get_session`
and `remove_session`, and `invariantViolation` is the `AssertionError` of the
generated-UUID collision assertion. -/
inductive IqrError where
  | duplicateSessionID
  | sessionNotFound
  | invariantViolation
deriving DecidableEq

/-- The controller state `self._iqr_sessions`: a dict from session UUID to
session, modelled as a partial map. -/
abbrev Registry (K S : Type) := K → Option S

variable {K S : Type} [DecidableEq K]

/-- `self._iqr_sessions[k] = sess`. -/
def registryInsert (reg : Registry K S) (k : K) (sess : S) : Registry K S :=
  fun k' => if k' = k then some sess else reg k'

/-- The `if not session_uuid:` branch of `IqrController.add_session`:
`session_uuid = uuid.uuid1()` (modelled by the supplied `fresh` value),
the collision assertion, then registration under the generated ID. -/
def add_session_generated (reg : Registry K S) (fresh : K) (sess : S) :
    Registry K S × Except IqrError K :=
  if (reg fresh).isSome then (reg, Except.error IqrError.invariantViolation)
  else (registryInsert reg fresh sess, Except.ok fresh)

/-- `IqrController.add_session` from `smqtk/iqr/iqr_controller.py`.  The
Python test `if not session_uuid:` is truthiness, not presence: an omitted ID
and a supplied falsy ID both take the generated-UUID branch.  `isTruthy`
models Python truthiness of the key type, `fresh` the value `uuid.uuid1()`
would produce, and the first component of the result is the registry after
the call (unchanged when an error is raised). -/
def add_session (isTruthy : K → Bool) (fresh : K) (reg : Registry K S) (sess : S)
    (session_uuid : Option K) : Registry K S × Except IqrError K :=
  match session_uuid with
  | none => add_session_generated reg fresh sess
  | some k =>
    if isTruthy k then
      if (reg k).isSome then (reg, Except.error IqrError.duplicateSessionID)
      else (registryInsert reg k sess, Except.ok k)
    else add_session_generated reg fresh sess

/-- `IqrController.get_session`: `return self._iqr_sessions[session_uuid]`,
raising `KeyError` when absent; the registry is returned unchanged either
way. -/
def get_session (reg : Registry K S) (k : K) : Registry K S × Except IqrError S :=
  match reg k with
  | some s => (reg, Except.ok s)
  | none => (reg, Except.error IqrError.sessionNotFound)

/-- `IqrController.remove_session`: the lookup
`self._iqr_sessions[session_uuid]` raises `KeyError` when absent (leaving the
registry untouched); otherwise `del self._iqr_sessions[session_uuid]` deletes
exactly that binding.  The intervening acquisition of the session's own lock
is a concurrency effect outside this embedding. -/
def remove_session (reg : Registry K S) (k : K) :
    Registry K S × Except IqrError Unit :=
  match reg k with
  | some _ => (fun k' => if k' = k then none else reg k', Except.ok ())
  | none => (reg, Except.error IqrError.sessionNotFound)

/-- Claim C9: for an unregistered ID, `get_session` and `remove_session` each
fail with SessionNotFound (`KeyError`) and leave the registry unchanged; for
a registered ID, `get_session` returns the bound session without mutation,
and `remove_session` deletes exactly that binding and no other. -/
theorem get_remove_session_spec (reg : Registry K S) (k : K) :
    (reg k = none →
      get_session reg k = (reg, Except.error IqrError.sessionNotFound) ∧
      remove_session reg k = (reg, Except.error IqrError.sessionNotFound)) ∧
    ∀ s, reg k = some s →
      get_session reg k = (reg, Except.ok s) ∧
      (remove_session reg k).2 = Except.ok () ∧
      (remove_session reg k).1 k = none ∧
      ∀ k', k' ≠ k → (remove_session reg k).1 k' = reg k' := by
  constructor
  · intro hk
    rw [get_session, remove_session]
    rw [hk]
    exact ⟨rfl, rfl⟩
  · intro s hk
    rw [get_session, remove_session, hk]
    refine ⟨rfl, rfl, ?_, ?_⟩
    · exact if_pos rfl
    · intro k' hk'
      exact if_neg hk'

/-- Witness for claim C9 on a concrete one-entry registry, exercised at its
registered key and at an absent key. -/
theorem get_remove_session_spec_witness :
    (((fun n => if n = 7 then some () else none) : Registry Nat Unit) 5 = none →
      get_session (fun n => if n = 7 then some () else none) 5 =
        ((fun n => if n = 7 then some () else none), Except.error IqrError.sessionNotFound) ∧
      remove_session (fun n => if n = 7 then some () else none) 5 =
        ((fun n => if n = 7 then some () else none), Except.error IqrError.sessionNotFound)) ∧
    ∀ s, ((fun n => if n = 7 then some () else none) : Registry Nat Unit) 7 = some s →
      get_session (fun n => if n = 7 then some () else none) 7 =
        ((fun n => if n = 7 then some () else none), Except.ok s) ∧
      (remove_session (fun n => if n = 7 then some () else none) 7).2 = Except.ok () ∧
      (remove_session (fun n => if n = 7 then some () else none) 7).1 7 = none ∧
      ∀ k', k' ≠ 7 →
        (remove_session (fun n => if n = 7 then some () else none) 7).1 k' =
          (fun n => if n = 7 then some () else none) k' :=
  ⟨(get_remove_session_spec (fun n => if n = 7 then some () else none) 5).1,
    (get_remove_session_spec (fun n => if n = 7 then some () else none) 7).2⟩

/-- Counterexample to claim C8 as stated: the falsy ID `0` is not registered
in the empty registry, yet `add_session` neither registers the session under
`0` nor returns `0` — it silently switches to the generated-UUID branch. -/
theorem add_session_counterexample :
    (add_session (fun n : Nat => !(n == 0)) 42 (fun _ => (none : Option Unit)) ()
        (some 0)).2 = Except.ok 42 ∧
    (Except.ok 42 : Except IqrError Nat) ≠ Except.ok 0 ∧
    (add_session (fun n : Nat => !(n == 0)) 42 (fun _ => (none : Option Unit)) ()
        (some 0)).1 0 = none := by
  refine ⟨rfl, ?_, rfl⟩
  intro h
  have : (42 : Nat) = 0 := by injection h
  cases this

/-- Claim C8 as amended: for every registry state and every caller-supplied
truthy session ID (one not treated as falsy by `if not session_uuid:`): if
the ID is already registered, `add_session` fails with DuplicateSessionID and
leaves the registry unchanged; if it is not registered, the call registers
the given session under it and returns that ID. -/
theorem add_session_supplied_spec (isTruthy : K → Bool) (fresh : K)
    (reg : Registry K S) (sess : S) (k : K) (hk : isTruthy k = true) :
    ((reg k).isSome →
      add_session isTruthy fresh reg sess (some k) =
        (reg, Except.error IqrError.duplicateSessionID)) ∧
    (reg k = none →
      add_session isTruthy fresh reg sess (some k) =
        (registryInsert reg k sess, Except.ok k)) := by
  constructor
  · intro hsome
    rw [add_session]
    rw [if_pos (by rw [hk]), if_pos hsome]
  · intro hnone
    rw [add_session]
    rw [if_pos (by rw [hk]), if_neg (by rw [hnone]; exact Bool.false_ne_true)]

/-- Witness for the amended claim C8: the truthy ID 7 is already registered,
so adding under it fails with DuplicateSessionID and the registry is
unchanged; the not-registered branch is exercised at the truthy ID 5 on the
same registry. -/
theorem add_session_supplied_spec_witness :
    ((fun n : Nat => !(n == 0)) 7 = true ∧
      ((((fun n => if n = 7 then some () else none) : Registry Nat Unit) 7).isSome →
        add_session (fun n : Nat => !(n == 0)) 42
            (fun n => if n = 7 then some () else none) () (some 7) =
          ((fun n => if n = 7 then some () else none),
            Except.error IqrError.duplicateSessionID))) ∧
    (((fun n => if n = 7 then some () else none) : Registry Nat Unit) 5 = none →
      add_session (fun n : Nat => !(n == 0)) 42
          (fun n => if n = 7 then some () else none) () (some 5) =
        (registryInsert (fun n => if n = 7 then some () else none) 5 (),
          Except.ok 5)) :=
  ⟨⟨rfl, (add_session_supplied_spec (fun n : Nat => !(n == 0)) 42
      (fun n => if n = 7 then some () else none) () 7 rfl).1⟩,
    (add_session_supplied_spec (fun n : Nat => !(n == 0)) 42
      (fun n => if n = 7 then some () else none) () 5 rfl).2⟩

/-- Claim C10: `add_session` distinguishes an omitted ID from a supplied one
by truthiness: a supplied falsy ID is silently ignored — the behaviour is
identical to omitting the ID — a fresh generated UUID is registered and
returned instead, no DuplicateSessionID is raised even when the falsy ID is
already registered (the registry is arbitrary here), and, the generated UUID
being truthy, no session is ever registered under a falsy ID by this
operation. -/
theorem add_session_falsy_spec (isTruthy : K → Bool) (fresh : K)
    (reg : Registry K S) (sess : S) (k : K) (hk : isTruthy k = false)
    (hfresh : reg fresh = none) :
    add_session isTruthy fresh reg sess (some k) =
      (registryInsert reg fresh sess, Except.ok fresh) ∧
    add_session isTruthy fresh reg sess (some k) =
      add_session isTruthy fresh reg sess none ∧
    (isTruthy fresh = true →
      ∀ k', isTruthy k' = false →
        (add_session isTruthy fresh reg sess (some k)).1 k' = reg k') := by
  have hgen : add_session_generated reg fresh sess =
      (registryInsert reg fresh sess, Except.ok fresh) := by
    rw [add_session_generated,
      if_neg (by rw [hfresh]; exact Bool.false_ne_true)]
  have hsupplied : add_session isTruthy fresh reg sess (some k) =
      add_session_generated reg fresh sess := by
    rw [add_session, if_neg (by rw [hk]; exact Bool.false_ne_true)]
  refine ⟨hsupplied.trans hgen, hsupplied.trans rfl, ?_⟩
  intro hft k' hk'
  rw [hsupplied, hgen]
  show registryInsert reg fresh sess k' = reg k'
  simp only [registryInsert]
  have hne : k' ≠ fresh := fun hh => by
    rw [hh, hft] at hk'
    cases hk'
  rw [if_neg hne]

/-- Witness for claim C10: the falsy ID 0 is already registered, yet
supplying it produces no DuplicateSessionID — the session is registered under
the generated UUID 42 which is returned, exactly as when the ID is omitted,
and the falsy binding is untouched. -/
theorem add_session_falsy_spec_witness :
    ((fun n : Nat => !(n == 0)) 0 = false ∧
      ((fun n => if n = 0 then some () else none) : Registry Nat Unit) 42 = none) ∧
    (add_session (fun n : Nat => !(n == 0)) 42
        (fun n => if n = 0 then some () else none) () (some 0) =
      (registryInsert (fun n => if n = 0 then some () else none) 42 (),
        Except.ok 42) ∧
    add_session (fun n : Nat => !(n == 0)) 42
        (fun n => if n = 0 then some () else none) () (some 0) =
      add_session (fun n : Nat => !(n == 0)) 42
        (fun n => if n = 0 then some () else none) () none ∧
    ((fun n : Nat => !(n == 0)) 42 = true →
      ∀ k', (fun n : Nat => !(n == 0)) k' = false →
        (add_session (fun n : Nat => !(n == 0)) 42
            (fun n => if n = 0 then some () else none) () (some 0)).1 k' =
          (fun n => if n = 0 then some () else none) k')) :=
  ⟨⟨rfl, rfl⟩,
    add_session_falsy_spec (fun n : Nat => !(n == 0)) 42
      (fun n => if n = 0 then some () else none) () 0 rfl rfl⟩

end SessionController
